import Mathlib

/-!
Verification of the literal decoding engine of the `literalext` crate
(`src/internal.rs`, `src/lib.rs`).

The embedding works over byte lists (`List Nat`, each element the value of
one input byte) for the byte-oriented decoders (`int_lit`, `float_lit`,
`byte_str_lit`) and over `List Char` for the character-oriented string
decoder (`str_lit`); the Rust code branches only on ASCII byte values at
positions where a character begins, so branching on the first character is
equivalent to branching on its first byte.

Rust `Option<T>` results whose computation may also `panic!` are embedded
as `Res T`, with `Res.notApplicable` for `None` (the text is not this
literal kind) and `Res.fatal` for a panic or failed assertion.

`RawInt` is the crate's default `u64` (the `i128` feature is off); checked
arithmetic is `Nat` arithmetic guarded by `RawIntMax`.  The float decoder's
final call to the platform's `str::parse::<f64>` is outside the model: the
embedded `float_lit` returns the numeric text it would hand to that parser
together with the suffix, exactly as the Rust code slices them.
-/

/-- Tri-valued result of a decoder: a value, "not this literal kind"
(Rust `None`), or a fatal abort (Rust `panic!` / failed assertion). -/
inductive Res (α : Type) where
  | ok : α → Res α
  | notApplicable : Res α
  | fatal : Res α
deriving DecidableEq, Repr

/-- Map over the `ok` value of a `Res`. -/
def Res.map (f : α → β) : Res α → Res β
  | .ok a => .ok (f a)
  | .notApplicable => .notApplicable
  | .fatal => .fatal

/-- Bytes of an ASCII Lean string, used to build concrete inputs. -/
def strBytes (s : String) : List Nat := s.data.map Char.toNat

/-- Characters of a Lean string, used to build concrete `str_lit` inputs. -/
def strChars (s : String) : List Char := s.data

/-- `internal.rs` `byte`: the byte at offset `idx`, or `0` past the end. -/
def byteAt (s : List Nat) (idx : Nat) : Nat := s.getD idx 0

/-- Value of a hexadecimal digit byte (case-insensitive), `none` otherwise.
Mirrors the three hex match arms shared by `backslash_x`/`backslash_u`. -/
def hexVal (b : Nat) : Option Nat :=
  if 48 ≤ b ∧ b ≤ 57 then some (b - 48)
  else if 97 ≤ b ∧ b ≤ 102 then some (10 + (b - 97))
  else if 65 ≤ b ∧ b ≤ 70 then some (10 + (b - 65))
  else none

/-! ## Integer decoder (`internal.rs` `int_lit`, `lib.rs` `IntLit`) -/

/-- `RawInt` is `u64` (the `i128` feature is off): its maximum value. -/
def RawIntMax : Nat := 2 ^ 64 - 1

/-- Rust `u64::checked_mul`. -/
def checked_mul (a b : Nat) : Option Nat :=
  if a * b ≤ RawIntMax then some (a * b) else none

/-- Rust `u64::checked_add`. -/
def checked_add (a b : Nat) : Option Nat :=
  if a + b ≤ RawIntMax then some (a + b) else none

/-- Digit classification of `int_lit`'s match, in the source's arm order:
decimal digits always, `a`-`f`/`A`-`F` only when `base > 10`. -/
def digitOf (base b : Nat) : Option Nat :=
  if 48 ≤ b ∧ b ≤ 57 then some (b - 48)
  else if (97 ≤ b ∧ b ≤ 102) ∧ 10 < base then some (10 + (b - 97))
  else if (65 ≤ b ∧ b ≤ 70) ∧ 10 < base then some (10 + (b - 65))
  else none

/-- Base detection of `int_lit` from the first two bytes: `0x`, `0o`, `0b`
(lowercase only), else base 10 when the first byte is a decimal digit. -/
def detectBase (s : List Nat) : Option (Nat × List Nat) :=
  if byteAt s 0 = 48 ∧ byteAt s 1 = 120 then some (16, s.drop 2)
  else if byteAt s 0 = 48 ∧ byteAt s 1 = 111 then some (8, s.drop 2)
  else if byteAt s 0 = 48 ∧ byteAt s 1 = 98 then some (2, s.drop 2)
  else if 48 ≤ byteAt s 0 ∧ byteAt s 0 ≤ 57 then some (10, s)
  else none

/-- The digit-accumulation loop of `int_lit`: consumes digits and
underscores, carries the checked running value, panics on a digit out of
base range, returns `None` (not applicable) on `.`/`e`/`E` in base 10,
and breaks at any other byte, returning value and remaining bytes. -/
def int_digits (base : Nat) : List Nat → Option Nat → Res (Option Nat × List Nat)
  | [], value => Res.ok (value, [])
  | b :: rest, value =>
    match digitOf base b with
    | some digit =>
      if base ≤ digit then Res.fatal
      else
        int_digits base rest
          ((value.bind (fun v => checked_mul v base)).bind
            (fun v => checked_add v digit))
    | none =>
      if b = 95 then int_digits base rest value
      else if base = 10 ∧ (b = 46 ∨ b = 101 ∨ b = 69) then Res.notApplicable
      else Res.ok (value, b :: rest)

/-- The same loop with exact (unchecked) accumulation, used to state what
the checked value overflowed. -/
def int_digits_exact (base : Nat) : List Nat → Nat → Res (Nat × List Nat)
  | [], value => Res.ok (value, [])
  | b :: rest, value =>
    match digitOf base b with
    | some digit =>
      if base ≤ digit then Res.fatal
      else int_digits_exact base rest (value * base + digit)
    | none =>
      if b = 95 then int_digits_exact base rest value
      else if base = 10 ∧ (b = 46 ∨ b = 101 ∨ b = 69) then Res.notApplicable
      else Res.ok (value, b :: rest)

/-- The legal integer suffix spellings of `int_lit`, as byte lists. -/
def intSuffixes : List (List Nat) :=
  [strBytes "u8", strBytes "i8", strBytes "u16", strBytes "i16",
   strBytes "u32", strBytes "i32", strBytes "u64", strBytes "i64",
   strBytes "usize", strBytes "isize", []]

/-- `lib.rs` `IntLit`: checked value (`none` after overflow) and suffix. -/
structure IntLit where
  val : Option Nat
  suffix : List Nat
deriving DecidableEq, Repr

/-- `internal.rs` `int_lit`. -/
def int_lit (s : List Nat) : Res IntLit :=
  match detectBase s with
  | none => Res.notApplicable
  | some (base, s1) =>
    match int_digits base s1 (some 0) with
    | Res.ok (value, rest) =>
      if rest ∈ intSuffixes then Res.ok ⟨value, rest⟩ else Res.notApplicable
    | Res.notApplicable => Res.notApplicable
    | Res.fatal => Res.fatal

/-- `lib.rs` `as_int_type!`: the generic accessor body, instantiated per
width below.  `none` when the suffix is nonempty and differs from the
requested type's name, or when the value is absent or above the type's
maximum. -/
def as_int_type (tmax : Nat) (tname : List Nat) (l : IntLit) : Option Nat :=
  if l.suffix ≠ [] ∧ l.suffix ≠ tname then none
  else l.val.bind (fun v => if tmax < v then none else some v)

def IntLit.as_u8 (l : IntLit) : Option Nat := as_int_type 255 (strBytes "u8") l

def IntLit.as_i8 (l : IntLit) : Option Nat := as_int_type 127 (strBytes "i8") l

def IntLit.as_u16 (l : IntLit) : Option Nat := as_int_type 65535 (strBytes "u16") l

def IntLit.as_i16 (l : IntLit) : Option Nat := as_int_type 32767 (strBytes "i16") l

def IntLit.as_u32 (l : IntLit) : Option Nat := as_int_type 4294967295 (strBytes "u32") l

def IntLit.as_i32 (l : IntLit) : Option Nat := as_int_type 2147483647 (strBytes "i32") l

def IntLit.as_u64 (l : IntLit) : Option Nat := as_int_type 18446744073709551615 (strBytes "u64") l

def IntLit.as_i64 (l : IntLit) : Option Nat := as_int_type 9223372036854775807 (strBytes "i64") l

/-! ## Float decoder (`internal.rs` `float_lit`, `lib.rs` `FloatLit`) -/

/-- The inner exponent loop of `float_lit`: consumes `+`/`-` while no
exponent digit has been seen, digits (setting `has_exp`), and underscores;
breaks at anything else.  Returns the final `has_exp` and the rest. -/
def expScan : List Nat → Bool → Bool × List Nat
  | [], he => (he, [])
  | b :: rest, he =>
    if (b = 43 ∨ b = 45) ∧ he = false then expScan rest he
    else if 48 ≤ b ∧ b ≤ 57 then expScan rest true
    else if b = 95 then expScan rest he
    else (he, b :: rest)

/-- The outer scan loop of `float_lit` over the underscore-free input:
digits advance; `.` advances, a second `.` panics; `e`/`E` runs the
exponent loop and asserts it saw a digit, then breaks; anything else
breaks.  Returns `(has_dot, has_exp, rest)`. -/
def floatScan : List Nat → Bool → Bool → Res (Bool × Bool × List Nat)
  | [], hd, he => Res.ok (hd, he, [])
  | b :: rest, hd, he =>
    if 48 ≤ b ∧ b ≤ 57 then floatScan rest hd he
    else if b = 46 then
      if hd then Res.fatal else floatScan rest true he
    else if b = 101 ∨ b = 69 then
      match expScan rest he with
      | (he2, r2) => if he2 then Res.ok (hd, he2, r2) else Res.fatal
    else Res.ok (hd, he, b :: rest)

/-- The legal float suffix spellings of `float_lit`. -/
def floatSuffixes : List (List Nat) := [strBytes "f32", strBytes "f64", []]

/-- `lib.rs` `FloatLit`, with the numeric text in place of the `f64` the
Rust code obtains from the platform parser (that conversion is delegated,
see the module comment). -/
structure FloatLit where
  num : List Nat
  suffix : List Nat
deriving DecidableEq, Repr

/-- `internal.rs` `float_lit`: reject base prefixes, require a leading
decimal digit, strip underscores, scan, validate the suffix, and return
`None` for an integer in disguise (no dot, no exponent, no suffix). -/
def float_lit (input : List Nat) : Res FloatLit :=
  if byteAt input 0 = 48 ∧
      (byteAt input 1 = 120 ∨ byteAt input 1 = 111 ∨ byteAt input 1 = 98) then
    Res.notApplicable
  else if 48 ≤ byteAt input 0 ∧ byteAt input 0 ≤ 57 then
    match floatScan (input.filter (fun b => b != 95)) false false with
    | Res.ok (hd, he, rest) =>
      if rest ∈ floatSuffixes then
        if he = false ∧ hd = false ∧ rest = [] then Res.notApplicable
        else
          Res.ok ⟨(input.filter (fun b => b != 95)).take
                    ((input.filter (fun b => b != 95)).length - rest.length),
                  rest⟩
      else Res.notApplicable
    | Res.notApplicable => Res.notApplicable
    | Res.fatal => Res.fatal
  else Res.notApplicable

/-! ## Lemmas about the integer digit loop -/

/-- Once the running value is absent it stays absent: a completed scan that
started from `none` reports an absent value. -/
theorem int_digits_none (base : Nat) :
    ∀ (s : List Nat) (v : Option Nat) (rest : List Nat),
      int_digits base s none = Res.ok (v, rest) → v = none := by
  intro s
  induction s with
  | nil =>
    intro v rest h
    simp only [int_digits, Res.ok.injEq, Prod.mk.injEq] at h
    exact h.1.symm
  | cons b bs ih =>
    intro v rest h
    simp only [int_digits] at h
    split at h
    · split at h
      · exact absurd h (by simp)
      · simp only [Option.none_bind] at h
        exact ih _ _ h
    · split at h
      · exact ih _ _ h
      · split at h
        · exact absurd h (by simp)
        · simp only [Res.ok.injEq, Prod.mk.injEq] at h
          exact h.1.symm

/-- The scan's outcome shape and remaining bytes do not depend on the
running value: the cursor advances identically whatever the accumulator. -/
theorem int_digits_snd_congr (base : Nat) :
    ∀ (s : List Nat) (a b : Option Nat),
      Res.map Prod.snd (int_digits base s a) = Res.map Prod.snd (int_digits base s b) := by
  intro s
  induction s with
  | nil => intro a b; rfl
  | cons x xs ih =>
    intro a b
    simp only [int_digits]
    split
    · split
      · rfl
      · exact ih _ _
    · split
      · exact ih _ _
      · split
        · rfl
        · rfl

/-- Checked accumulation agrees with exact accumulation guarded by
`RawIntMax`: the checked value is present exactly while the exact value
fits in the width. -/
theorem int_digits_checked_exact (base : Nat) (hb : 1 ≤ base) :
    ∀ (s : List Nat) (e : Nat),
      int_digits base s (if RawIntMax < e then none else some e) =
      Res.map (fun p => ((if RawIntMax < p.1 then none else some p.1 : Option Nat), p.2))
        (int_digits_exact base s e) := by
  intro s
  induction s with
  | nil => intro e; rfl
  | cons b bs ih =>
    intro e
    simp only [int_digits, int_digits_exact]
    split
    · rename_i d hd
      split
      · rfl
      · rename_i hlt
        have hstep :
            ((if RawIntMax < e then none else some e).bind
              (fun v => checked_mul v base)).bind (fun v => checked_add v d) =
            (if RawIntMax < e * base + d then none else some (e * base + d)) := by
          by_cases he : RawIntMax < e
          · have h5 : RawIntMax < e * base + d := by
              have h6 : e ≤ e * base := Nat.le_mul_of_pos_right e hb
              omega
            simp [he, h5]
          · by_cases h2 : e * base ≤ RawIntMax
            · by_cases h3 : e * base + d ≤ RawIntMax
              · simp [he, checked_mul, checked_add, h2, h3, Nat.not_lt.mpr h3]
              · simp [he, checked_mul, checked_add, h2, h3, Nat.lt_of_not_le h3]
            · have h4 : RawIntMax < e * base + d := by omega
              simp [he, checked_mul, checked_add, h2, h4]
        rw [hstep]
        exact ih _
    · split
      · exact ih _
      · split
        · rfl
        · rfl

/-- Every base produced by `detectBase` is positive. -/
theorem detectBase_pos (s : List Nat) (base : Nat) (s1 : List Nat)
    (h : detectBase s = some (base, s1)) : 1 ≤ base := by
  unfold detectBase at h
  split_ifs at h <;> simp only [Option.some.injEq, Prod.mk.injEq] at h <;> omega

/-- C2: once a checked multiply-then-add of a digit overflows the integer
width, the running value is absent and stays absent for every subsequent
digit, while the cursor advances over the remaining digits exactly as it
would with a present value; hence any integer literal whose digits exceed
`RawIntMax` decodes, when its trailing bytes form a legal suffix, to a
literal with that suffix preserved and its value absent — the decoder
neither wraps nor aborts. -/
theorem int_lit_overflow_spec :
    (∀ (base : Nat) (s : List Nat) (v : Option Nat) (rest : List Nat),
        int_digits base s none = Res.ok (v, rest) → v = none) ∧
    (∀ (base : Nat) (s : List Nat) (a b : Option Nat),
        Res.map Prod.snd (int_digits base s a) = Res.map Prod.snd (int_digits base s b)) ∧
    (∀ (s : List Nat) (base : Nat) (s1 : List Nat) (n : Nat) (rest : List Nat),
        detectBase s = some (base, s1) →
        int_digits_exact base s1 0 = Res.ok (n, rest) →
        RawIntMax < n → rest ∈ intSuffixes →
        int_lit s = Res.ok ⟨none, rest⟩) := by
  refine ⟨int_digits_none, int_digits_snd_congr, ?_⟩
  intro s base s1 n rest hdet hexact hover hsuf
  have hb : 1 ≤ base := detectBase_pos s base s1 hdet
  have h0 : int_digits base s1 (some 0) =
      Res.map (fun p => ((if RawIntMax < p.1 then none else some p.1 : Option Nat), p.2))
        (int_digits_exact base s1 0) := by
    have h := int_digits_checked_exact base hb s1 0
    rwa [if_neg (by simp [RawIntMax])] at h
  rw [hexact] at h0
  unfold int_lit
  rw [hdet]
  simp only [h0, Res.map, hover, if_true, hsuf]

/-- Witness for C2: `99999999999999999999u8` overflows `u64`; the decoded
literal keeps the `u8` suffix and has an absent value. -/
theorem int_lit_overflow_witness :
    int_lit (strBytes "99999999999999999999u8") = Res.ok ⟨none, strBytes "u8"⟩ :=
  int_lit_overflow_spec.2.2 (strBytes "99999999999999999999u8") 10
    (strBytes "99999999999999999999u8") 99999999999999999999 (strBytes "u8")
    (by decide) (by decide) (by decide) (by decide)

/-- C1 (amended): with the lowercase prefixes the decoder accepts
case-insensitive hex digits — `0x7F` and `0x7f` each decode to 127,
`0b1001` to 9 and `0o73` to 59 — but the uppercase prefix spelling `0X7F`
is not an integer literal at all: base detection matches only the exact
two-byte prefixes `0x`/`0o`/`0b`. -/
theorem int_lit_base_prefix_spec :
    int_lit (strBytes "0x7F") = Res.ok ⟨some 127, []⟩ ∧
    int_lit (strBytes "0x7f") = Res.ok ⟨some 127, []⟩ ∧
    int_lit (strBytes "0b1001") = Res.ok ⟨some 9, []⟩ ∧
    int_lit (strBytes "0o73") = Res.ok ⟨some 59, []⟩ ∧
    int_lit (strBytes "0X7F") = Res.notApplicable := by decide

/-- C1 counterexample: decoding `0X7F` does not yield 127 with any suffix;
it yields "not applicable" (the `X` stops the base-10 digit scan and
`X7F` is not a legal suffix). -/
theorem int_lit_upper_x_prefix_rejected :
    int_lit (strBytes "0X7F") = Res.notApplicable ∧
    ¬ ∃ suffix : List Nat, int_lit (strBytes "0X7F") = Res.ok ⟨some 127, suffix⟩ := by
  refine ⟨by decide, ?_⟩
  rintro ⟨suf, h⟩
  rw [show int_lit (strBytes "0X7F") = Res.notApplicable by decide] at h
  exact absurd h (by simp)

/-- C6: `5u32` decodes to value 5 with suffix `u32`; on that literal
`as_u8` returns `none` (suffix mismatch) while `as_u32` returns 5. -/
theorem int_lit_suffix_binding :
    int_lit (strBytes "5u32") = Res.ok ⟨some 5, strBytes "u32"⟩ ∧
    IntLit.as_u8 ⟨some 5, strBytes "u32"⟩ = none ∧
    IntLit.as_u32 ⟨some 5, strBytes "u32"⟩ = some 5 := by decide

/-- The generic accessor on a suffix-free literal with a present value is
exactly a range check against the target maximum. -/
theorem as_int_type_range (tmax : Nat) (tname : List Nat) (v : Nat) :
    as_int_type tmax tname ⟨some v, []⟩ = if v ≤ tmax then some v else none := by
  simp only [as_int_type, ne_eq, not_true_eq_false, false_and, if_false, Option.some_bind]
  split_ifs <;> first | rfl | omega

/-- C10: on an integer literal with empty suffix and present value `v`,
each width accessor returns `v` exactly when `v` is at most that type's
maximum value and an absent result when `v` exceeds it. -/
theorem as_int_accessor_range (v : Nat) :
    (IntLit.as_u8 ⟨some v, []⟩ = if v ≤ 255 then some v else none) ∧
    (IntLit.as_i8 ⟨some v, []⟩ = if v ≤ 127 then some v else none) ∧
    (IntLit.as_u16 ⟨some v, []⟩ = if v ≤ 65535 then some v else none) ∧
    (IntLit.as_i16 ⟨some v, []⟩ = if v ≤ 32767 then some v else none) ∧
    (IntLit.as_u32 ⟨some v, []⟩ = if v ≤ 4294967295 then some v else none) ∧
    (IntLit.as_i32 ⟨some v, []⟩ = if v ≤ 2147483647 then some v else none) ∧
    (IntLit.as_u64 ⟨some v, []⟩ = if v ≤ 18446744073709551615 then some v else none) ∧
    (IntLit.as_i64 ⟨some v, []⟩ = if v ≤ 9223372036854775807 then some v else none) :=
  ⟨as_int_type_range _ _ v, as_int_type_range _ _ v, as_int_type_range _ _ v,
   as_int_type_range _ _ v, as_int_type_range _ _ v, as_int_type_range _ _ v,
   as_int_type_range _ _ v, as_int_type_range _ _ v⟩

/-- C7: the decoders are mutually not-applicable — the base-10 integer
scan returns "not applicable" the moment it meets `.`, `e` or `E`
(whatever the accumulator), so `5.5` is not an integer; and a float scan
that saw no dot and no exponent and left no suffix makes `float_lit`
return "not applicable", so `5` is not a float. -/
theorem int_float_mutual_not_applicable :
    (∀ (rest : List Nat) (a : Option Nat), int_digits 10 (46 :: rest) a = Res.notApplicable) ∧
    (∀ (rest : List Nat) (a : Option Nat), int_digits 10 (101 :: rest) a = Res.notApplicable) ∧
    (∀ (rest : List Nat) (a : Option Nat), int_digits 10 (69 :: rest) a = Res.notApplicable) ∧
    (∀ input : List Nat,
        floatScan (input.filter (fun b => b != 95)) false false = Res.ok (false, false, []) →
        float_lit input = Res.notApplicable) ∧
    int_lit (strBytes "5.5") = Res.notApplicable ∧
    float_lit (strBytes "5") = Res.notApplicable := by
  refine ⟨fun rest a => by simp [int_digits, digitOf],
    fun rest a => by simp [int_digits, digitOf],
    fun rest a => by simp [int_digits, digitOf],
    ?_, by decide, by decide⟩
  intro input h
  unfold float_lit
  split_ifs with h1 h2
  · rfl
  · rw [h]
    simp [floatSuffixes]
  · rfl

/-- Witness for C7 at the concrete integer text `7`. -/
theorem int_float_mutual_witness : float_lit (strBytes "7") = Res.notApplicable :=
  int_float_mutual_not_applicable.2.2.2.1 (strBytes "7") (by decide)

/-- C3 counterexample: the float scan accepts an exponent with two leading
signs — `1e++5` scans to success (and `1e++5f64` passes suffix
validation), so the exponent does not admit "at most one" leading sign. -/
theorem float_scan_two_signs_accepted :
    floatScan (strBytes "1e++5") false false = Res.ok (false, true, []) ∧
    float_lit (strBytes "1e++5f64") =
      Res.ok ⟨strBytes "1e++5", strBytes "f64"⟩ := by decide

/-- C3 (amended): in the float scan a single `.` is allowed and a second
`.` is fatal; `e`/`E` begins an exponent whose loop consumes sign
characters as long as no exponent digit has been seen (so any number of
signs may precede the first digit, not at most one); at least one digit is
required — its absence is fatal — and after the exponent scanning stops,
returning the remaining bytes. -/
theorem float_scan_spec :
    (∀ (rest : List Nat) (he : Bool), floatScan (46 :: rest) true he = Res.fatal) ∧
    (∀ (rest : List Nat) (he : Bool), floatScan (46 :: rest) false he = floatScan rest true he) ∧
    (∀ rest : List Nat, expScan (43 :: rest) false = expScan rest false) ∧
    (∀ rest : List Nat, expScan (45 :: rest) false = expScan rest false) ∧
    (∀ (rest : List Nat) (hd : Bool) (e : Nat), (e = 101 ∨ e = 69) →
        (expScan rest false).1 = false → floatScan (e :: rest) hd false = Res.fatal) ∧
    (∀ (rest r2 : List Nat) (hd : Bool) (e : Nat), (e = 101 ∨ e = 69) →
        expScan rest false = (true, r2) →
        floatScan (e :: rest) hd false = Res.ok (hd, true, r2)) := by
  refine ⟨fun rest he => by simp [floatScan],
    fun rest he => by simp [floatScan],
    fun rest => by simp [expScan],
    fun rest => by simp [expScan], ?_, ?_⟩
  · intro rest hd e he hexp
    rcases hpair : expScan rest false with ⟨he2, r2⟩
    rw [hpair] at hexp
    simp only at hexp
    rcases he with rfl | rfl <;> simp [floatScan, hpair, hexp]
  · intro rest r2 hd e he hexp
    rcases he with rfl | rfl <;> simp [floatScan, hexp]

/-- Witness for C3's amended exponent rule: `e` followed by `f64` has no
exponent digit, which is fatal. -/
theorem float_scan_spec_witness :
    floatScan (101 :: strBytes "f64") false false = Res.fatal :=
  float_scan_spec.2.2.2.2.1 (strBytes "f64") false 101 (Or.inl rfl) (by decide)

/-- Underscores interleaved among base-10 digits never change the digit
scan: filtering them out of the digit run gives the same result, value
and remaining bytes included. -/
theorem int_digits_underscore (t : List Nat) :
    ∀ (ds : List Nat) (a : Option Nat), (∀ b ∈ ds, (48 ≤ b ∧ b ≤ 57) ∨ b = 95) →
      int_digits 10 (ds ++ t) a = int_digits 10 (ds.filter (fun b => b != 95) ++ t) a := by
  intro ds
  induction ds with
  | nil => intro a _; rfl
  | cons b bs ih =>
    intro a hall
    have hrest : ∀ x ∈ bs, (48 ≤ x ∧ x ≤ 57) ∨ x = 95 :=
      fun x hx => hall x (by simp [hx])
    rcases hall b (by simp) with hb | hb
    · have hdg : digitOf 10 b = some (b - 48) := by
        simp [digitOf, hb.1, hb.2]
      have hfil : (b :: bs).filter (fun x => x != 95) = b :: bs.filter (fun x => x != 95) := by
        have : (b != 95) = true := by simp; omega
        simp [List.filter_cons, this]
      rw [hfil]
      simp only [List.cons_append, int_digits, hdg]
      rw [if_neg (by omega), if_neg (by omega)]
      exact ih _ hrest
    · subst hb
      have hdg : digitOf 10 95 = none := by decide
      have hfil : (95 :: bs).filter (fun x => x != 95) = bs.filter (fun x => x != 95) := by
        simp [List.filter_cons]
      rw [hfil]
      simp only [List.cons_append, int_digits, hdg, if_true]
      exact ih _ hrest

/-- C5: a valid decimal integer literal — a decimal digit followed by any
mix of digits and underscores, then trailing text that cannot turn the
leading `0` into a base prefix — decodes to exactly the same result
(value and suffix alike) as the same text with the underscores removed;
underscores never contribute to the accumulated value. -/
theorem int_lit_underscore_insensitive (d : Nat) (ds t : List Nat)
    (hd : 48 ≤ d ∧ d ≤ 57)
    (hds : ∀ b ∈ ds, (48 ≤ b ∧ b ≤ 57) ∨ b = 95)
    (ht : byteAt t 0 ≠ 120 ∧ byteAt t 0 ≠ 111 ∧ byteAt t 0 ≠ 98) :
    int_lit (d :: (ds ++ t)) = int_lit (d :: (ds.filter (fun b => b != 95) ++ t)) := by
  have key : ∀ l : List Nat, byteAt l 0 ≠ 120 → byteAt l 0 ≠ 111 → byteAt l 0 ≠ 98 →
      detectBase (d :: l) = some (10, d :: l) := by
    intro l k1 k2 k3
    have e0 : byteAt (d :: l) 0 = d := rfl
    have e1 : byteAt (d :: l) 1 = byteAt l 0 := rfl
    unfold detectBase
    rw [e0, e1]
    rw [if_neg (show ¬(d = 48 ∧ byteAt l 0 = 120) by omega),
        if_neg (show ¬(d = 48 ∧ byteAt l 0 = 111) by omega),
        if_neg (show ¬(d = 48 ∧ byteAt l 0 = 98) by omega),
        if_pos (show 48 ≤ d ∧ d ≤ 57 by omega)]
  have hside : ∀ l : List Nat,
      (∀ b ∈ l, (48 ≤ b ∧ b ≤ 57) ∨ b = 95) →
      byteAt (l ++ t) 0 ≠ 120 ∧ byteAt (l ++ t) 0 ≠ 111 ∧ byteAt (l ++ t) 0 ≠ 98 := by
    intro l hl
    cases l with
    | nil => exact ht
    | cons x xs =>
      have hx0 : byteAt ((x :: xs) ++ t) 0 = x := rfl
      rcases hl x (by simp) with hx | hx <;> rw [hx0] <;> omega
  have h1 := hside ds hds
  have h2 := hside (ds.filter (fun b => b != 95))
    (fun b hb => hds b (List.mem_of_mem_filter hb))
  have hscan : int_digits 10 (d :: (ds ++ t)) (some 0) =
      int_digits 10 (d :: (ds.filter (fun b => b != 95) ++ t)) (some 0) := by
    have hdg : digitOf 10 d = some (d - 48) := by
      simp [digitOf, hd.1, hd.2]
    simp only [int_digits, hdg]
    rw [if_neg (by omega), if_neg (by omega)]
    exact int_digits_underscore t ds _ hds
  unfold int_lit
  rw [key _ h1.1 h1.2.1 h1.2.2, key _ h2.1 h2.2.1 h2.2.2]
  simp only [hscan]

/-- Witness for C5 at the test literal `5_____0_____`, whose underscore
free form is `50`. -/
theorem int_lit_underscore_witness :
    int_lit (53 :: (strBytes "_____0_____" ++ [])) =
    int_lit (53 :: ((strBytes "_____0_____").filter (fun b => b != 95) ++ [])) :=
  int_lit_underscore_insensitive 53 (strBytes "_____0_____") [] (by decide) (by decide)
    (by decide)

/-! ## String and byte-string decoders (`internal.rs` `str_lit`,
`byte_str_lit`, `raw_str`, `backslash_x`, `backslash_u`) -/

/-- Rust `char::is_whitespace` (the Unicode White_Space property) of a
scalar value. -/
def isWs (n : Nat) : Bool :=
  (9 ≤ n && n ≤ 13) || n == 32 || n == 133 || n == 160 || n == 5760 ||
  (8192 ≤ n && n ≤ 8202) || n == 8232 || n == 8233 || n == 8239 || n == 8287 || n == 12288

/-- The line-continuation whitespace skip of `str_lit`: drop characters
while they are whitespace (an empty rest reads as NUL, not whitespace). -/
def skipWsC : List Char → List Char
  | [] => []
  | c :: rest => if isWs c.toNat then skipWsC rest else c :: rest

/-- The line-continuation whitespace skip of `byte_str_lit`, at the byte
level (each byte is turned into the character of the same code). -/
def skipWsB : List Nat → List Nat
  | [] => []
  | b :: rest => if isWs b then skipWsB rest else b :: rest

/-- `internal.rs` `backslash_x` instantiated at `&str`: exactly two hex
characters, anything else (including running out of input, which reads as
byte 0) is a panic. -/
def backslash_x_str : List Char → Res (List Char × Nat)
  | c0 :: c1 :: rest =>
    match hexVal c0.toNat, hexVal c1.toNat with
    | some d1, some d2 => Res.ok (rest, 16 * d1 + d2)
    | _, _ => Res.fatal
  | _ => Res.fatal

/-- `internal.rs` `backslash_x` instantiated at `&[u8]`. -/
def backslash_x_bytes : List Nat → Res (List Nat × Nat)
  | b0 :: b1 :: rest =>
    match hexVal b0, hexVal b1 with
    | some d1, some d2 => Res.ok (rest, 16 * d1 + d2)
    | _, _ => Res.fatal
  | _ => Res.fatal

/-- Rust `char::from_u32` validity: not a surrogate, below `0x110000`. -/
def isScalar (n : Nat) : Bool := n < 55296 || (57344 ≤ n && n < 1114112)

/-- The digit loop of `backslash_u`: up to six hex digits, breaking at a
closing brace (left in place); any other character is a panic. -/
def bsuLoop : Nat → List Char → Nat → Res (List Char × Nat)
  | 0, s, ch => Res.ok (s, ch)
  | _ + 1, [], _ => Res.fatal
  | n + 1, c :: rest, ch =>
    match hexVal c.toNat with
    | some d => bsuLoop n rest (16 * ch + d)
    | none => if c.toNat = 125 then Res.ok (c :: rest, ch) else Res.fatal

/-- `internal.rs` `backslash_u`: an opening brace, the digit loop, the
closing brace, and the accumulated code point must be a Unicode scalar
value, else a panic. -/
def backslash_u_str (s : List Char) : Res (List Char × Char) :=
  match s with
  | c :: rest =>
    if c.toNat = 123 then
      match bsuLoop 6 rest 0 with
      | Res.ok (s2, ch) =>
        match s2 with
        | c2 :: rest2 =>
          if c2.toNat = 125 then
            if isScalar ch then Res.ok (rest2, Char.ofNat ch) else Res.fatal
          else Res.fatal
        | [] => Res.fatal
      | Res.notApplicable => Res.fatal
      | Res.fatal => Res.fatal
    else Res.fatal
  | [] => Res.fatal

/-- Index of the first element satisfying `p` (Rust `str::find`). -/
def findIdxQ (p : α → Bool) : List α → Option Nat
  | [] => none
  | a :: l => if p a then some 0 else (findIdxQ p l).map (· + 1)

/-- Index of the last element satisfying `p` (Rust `str::rfind`). -/
def rfindIdxQ (p : α → Bool) (l : List α) : Option Nat :=
  match findIdxQ p l.reverse with
  | some i => some (l.length - 1 - i)
  | none => none

/-- `internal.rs` `raw_str`, generic in the element type: the slice
strictly between the first and the last quote, verbatim; a missing quote
(`expect`) or a first quote not strictly before the last (out-of-range
slice) is a panic. -/
def rawSlice [DecidableEq α] (q : α) (s : List α) : Res (List α) :=
  match findIdxQ (fun c => c = q) s, rfindIdxQ (fun c => c = q) s with
  | some b, some e =>
    if b + 1 ≤ e then Res.ok ((s.drop (b + 1)).take (e - (b + 1))) else Res.fatal
  | _, _ => Res.fatal

/-- `raw_str` on character lists, as called by `str_lit`. -/
def raw_str (s : List Char) : Res (List Char) := rawSlice '"' s

/-- `raw_str(s).as_bytes()` as called by `byte_str_lit`, at byte level
(the quote is an ASCII byte, so byte search equals character search). -/
def raw_str_bytes (s : List Nat) : Res (List Nat) := rawSlice 34 s

/-- The quoted-string scan loop of `str_lit`, from just past the opening
quote.  `fuel` only bounds the recursion: every iteration consumes at
least one character and `str_lit` passes `fuel = s.length`, so fuel 0 is
reached only at `s = []`, where the Rust loop reads the NUL sentinel and
then slices out of bounds — a panic, `fatal` here as well.  The escape
arms are in the source's order. -/
def str_scan : Nat → List Char → List Char → Res (List Char)
  | _, [], _ => Res.fatal
  | 0, _ :: _, _ => Res.fatal
  | fuel + 1, c :: rest, out =>
    if c = '"' then
      if rest = [] then Res.ok out else Res.fatal
    else if c = '\\' then
      match rest with
      | [] => Res.fatal
      | b :: rest2 =>
        if b = 'x' then
          match backslash_x_str rest2 with
          | Res.ok (r3, v) =>
            if v ≤ 128 then str_scan fuel r3 (out ++ [Char.ofNat v]) else Res.fatal
          | Res.notApplicable => Res.fatal
          | Res.fatal => Res.fatal
        else if b = 'u' then
          match backslash_u_str rest2 with
          | Res.ok (r3, ch) => str_scan fuel r3 (out ++ [ch])
          | Res.notApplicable => Res.fatal
          | Res.fatal => Res.fatal
        else if b = 'n' then str_scan fuel rest2 (out ++ ['\n'])
        else if b = 'r' then str_scan fuel rest2 (out ++ ['\r'])
        else if b = 't' then str_scan fuel rest2 (out ++ ['\t'])
        else if b = '\\' then str_scan fuel rest2 (out ++ ['\\'])
        else if b = '0' then str_scan fuel rest2 (out ++ [Char.ofNat 0])
        else if b.toNat = 39 then str_scan fuel rest2 (out ++ [Char.ofNat 39])
        else if b = '"' then str_scan fuel rest2 (out ++ ['"'])
        else if b = '\r' ∨ b = '\n' then str_scan fuel (skipWsC rest2) out
        else Res.fatal
    else if c = '\r' then
      match rest with
      | b :: rest2 => if b = '\n' then str_scan fuel rest2 (out ++ ['\n']) else Res.fatal
      | [] => Res.fatal
    else str_scan fuel rest (out ++ [c])

/-- `internal.rs` `str_lit`: a leading `"` starts the escape-aware scan, a
leading `r` delegates the whole text to the raw extractor, anything else
is not a string literal. -/
def str_lit (s : List Char) : Res (List Char) :=
  match s with
  | c :: rest =>
    if c = '"' then str_scan rest.length rest []
    else if c = 'r' then raw_str s
    else Res.notApplicable
  | [] => Res.notApplicable

/-- The quoted byte-string scan loop of `byte_str_lit`, on bytes; same
shape as `str_scan` but with no `\u` escape, no range check on `\x`, and
raw bytes copied through.  Fuel plays the same role as in `str_scan`. -/
def byte_scan : Nat → List Nat → List Nat → Res (List Nat)
  | _, [], _ => Res.fatal
  | 0, _ :: _, _ => Res.fatal
  | fuel + 1, b0 :: rest, out =>
    if b0 = 34 then
      if rest = [] then Res.ok out else Res.fatal
    else if b0 = 92 then
      match rest with
      | [] => Res.fatal
      | b :: rest2 =>
        if b = 120 then
          match backslash_x_bytes rest2 with
          | Res.ok (r3, v) => byte_scan fuel r3 (out ++ [v])
          | Res.notApplicable => Res.fatal
          | Res.fatal => Res.fatal
        else if b = 110 then byte_scan fuel rest2 (out ++ [10])
        else if b = 114 then byte_scan fuel rest2 (out ++ [13])
        else if b = 116 then byte_scan fuel rest2 (out ++ [9])
        else if b = 92 then byte_scan fuel rest2 (out ++ [92])
        else if b = 48 then byte_scan fuel rest2 (out ++ [0])
        else if b = 39 then byte_scan fuel rest2 (out ++ [39])
        else if b = 34 then byte_scan fuel rest2 (out ++ [34])
        else if b = 13 ∨ b = 10 then byte_scan fuel (skipWsB rest2) out
        else Res.fatal
    else if b0 = 13 then
      match rest with
      | b :: rest2 => if b = 10 then byte_scan fuel rest2 (out ++ [10]) else Res.fatal
      | [] => Res.fatal
    else byte_scan fuel rest (out ++ [b0])

/-- `internal.rs` `byte_str_lit`: `b"` starts the byte scan, `br` hands
the whole text to the raw extractor, anything else is not a byte string. -/
def byte_str_lit (s : List Nat) : Res (List Nat) :=
  match s with
  | 98 :: 34 :: rest => byte_scan rest.length rest []
  | 98 :: 114 :: _ => raw_str_bytes s
  | _ => Res.notApplicable

/-- C4: a `\xNN` escape in a text string is fatal exactly when the
decoded byte value exceeds 0x80 — a value up to and including 0x80 is
accepted and appended as the character of that code — while in a
byte-string every decoded value 0x00 through 0xFF is accepted and
appended as the raw byte; concretely `"\xFF"` is fatal as a text string,
`"\x80"` decodes, and `b"\xFF"`, `b"\x00"` decode to the raw bytes. -/
theorem backslash_x_range_spec :
    (∀ (fuel : Nat) (c0 c1 : Char) (s out : List Char) (d1 d2 : Nat),
        hexVal c0.toNat = some d1 → hexVal c1.toNat = some d2 → 128 < 16 * d1 + d2 →
        str_scan (fuel + 1) ('\\' :: 'x' :: c0 :: c1 :: s) out = Res.fatal) ∧
    (∀ (fuel : Nat) (c0 c1 : Char) (s out : List Char) (d1 d2 : Nat),
        hexVal c0.toNat = some d1 → hexVal c1.toNat = some d2 → 16 * d1 + d2 ≤ 128 →
        str_scan (fuel + 1) ('\\' :: 'x' :: c0 :: c1 :: s) out =
          str_scan fuel s (out ++ [Char.ofNat (16 * d1 + d2)])) ∧
    (∀ (fuel : Nat) (b0 b1 : Nat) (s out : List Nat) (d1 d2 : Nat),
        hexVal b0 = some d1 → hexVal b1 = some d2 →
        byte_scan (fuel + 1) (92 :: 120 :: b0 :: b1 :: s) out =
          byte_scan fuel s (out ++ [16 * d1 + d2])) ∧
    str_lit (strChars "\"\\xFF\"") = Res.fatal ∧
    str_lit (strChars "\"\\x80\"") = Res.ok [Char.ofNat 128] ∧
    byte_str_lit (strBytes "b\"\\xFF\"") = Res.ok [255] ∧
    byte_str_lit (strBytes "b\"\\x00\"") = Res.ok [0] := by
  refine ⟨?_, ?_, ?_, by decide, by decide, by decide, by decide⟩
  · intro fuel c0 c1 s out d1 d2 h1 h2 hgt
    have hstep : str_scan (fuel + 1) ('\\' :: 'x' :: c0 :: c1 :: s) out =
        match backslash_x_str (c0 :: c1 :: s) with
        | Res.ok (r3, v) =>
          if v ≤ 128 then str_scan fuel r3 (out ++ [Char.ofNat v]) else Res.fatal
        | Res.notApplicable => Res.fatal
        | Res.fatal => Res.fatal := rfl
    have hbsx : backslash_x_str (c0 :: c1 :: s) = Res.ok (s, 16 * d1 + d2) := by
      simp [backslash_x_str, h1, h2]
    rw [hstep, hbsx]
    simp only
    rw [if_neg (by omega)]
  · intro fuel c0 c1 s out d1 d2 h1 h2 hle
    have hstep : str_scan (fuel + 1) ('\\' :: 'x' :: c0 :: c1 :: s) out =
        match backslash_x_str (c0 :: c1 :: s) with
        | Res.ok (r3, v) =>
          if v ≤ 128 then str_scan fuel r3 (out ++ [Char.ofNat v]) else Res.fatal
        | Res.notApplicable => Res.fatal
        | Res.fatal => Res.fatal := rfl
    have hbsx : backslash_x_str (c0 :: c1 :: s) = Res.ok (s, 16 * d1 + d2) := by
      simp [backslash_x_str, h1, h2]
    rw [hstep, hbsx]
    simp only
    rw [if_pos hle]
  · intro fuel b0 b1 s out d1 d2 h1 h2
    have hstep : byte_scan (fuel + 1) (92 :: 120 :: b0 :: b1 :: s) out =
        match backslash_x_bytes (b0 :: b1 :: s) with
        | Res.ok (r3, v) => byte_scan fuel r3 (out ++ [v])
        | Res.notApplicable => Res.fatal
        | Res.fatal => Res.fatal := rfl
    have hbsx : backslash_x_bytes (b0 :: b1 :: s) = Res.ok (s, 16 * d1 + d2) := by
      simp [backslash_x_bytes, h1, h2]
    rw [hstep, hbsx]

/-- Witness for C4: the escape `\xFF` (value 255 > 0x80) inside a text
string scan is fatal. -/
theorem backslash_x_range_witness :
    str_scan 5 ('\\' :: 'x' :: 'F' :: 'F' :: ['"']) [] = Res.fatal :=
  backslash_x_range_spec.1 4 'F' 'F' ['"'] [] 15 15 (by decide) (by decide) (by decide)

/-- C8: in both quoted decoders a backslash immediately followed by a
carriage return or newline appends nothing and continues the scan at the
input with the following whitespace run skipped; the skip removes exactly
the maximal run of whitespace characters (spaces, tabs, newlines, ...)
and normal scanning resumes at the first non-whitespace character. -/
theorem line_continuation_spec :
    (∀ (fuel : Nat) (b : Char) (s out : List Char), b = '\r' ∨ b = '\n' →
        str_scan (fuel + 1) ('\\' :: b :: s) out = str_scan fuel (skipWsC s) out) ∧
    (∀ (ws t : List Char), (∀ c ∈ ws, isWs c.toNat = true) → skipWsC (ws ++ t) = skipWsC t) ∧
    (∀ (c : Char) (t : List Char), isWs c.toNat = false → skipWsC (c :: t) = c :: t) ∧
    (∀ (fuel : Nat) (b : Nat) (s out : List Nat), b = 13 ∨ b = 10 →
        byte_scan (fuel + 1) (92 :: b :: s) out = byte_scan fuel (skipWsB s) out) ∧
    (∀ (ws t : List Nat), (∀ b ∈ ws, isWs b = true) → skipWsB (ws ++ t) = skipWsB t) ∧
    (∀ (b : Nat) (t : List Nat), isWs b = false → skipWsB (b :: t) = b :: t) := by
  refine ⟨?_, ?_, ?_, ?_, ?_, ?_⟩
  · intro fuel b s out h
    rcases h with rfl | rfl <;> rfl
  · intro ws t hws
    induction ws with
    | nil => rfl
    | cons c cs ih =>
      have hc : isWs c.toNat = true := hws c (by simp)
      simp only [List.cons_append, skipWsC, hc, if_true]
      exact ih (fun x hx => hws x (by simp [hx]))
  · intro c t hc
    simp [skipWsC, hc]
  · intro fuel b s out h
    rcases h with rfl | rfl <;> rfl
  · intro ws t hws
    induction ws with
    | nil => rfl
    | cons c cs ih =>
      have hc : isWs c = true := hws c (by simp)
      simp only [List.cons_append, skipWsB, hc, if_true]
      exact ih (fun x hx => hws x (by simp [hx]))
  · intro b t hb
    simp [skipWsB, hb]

/-- Witness for C8: a backslash-newline followed by two spaces continues
the scan at the whitespace-skipped rest with the output untouched. -/
theorem line_continuation_witness :
    str_scan 7 ('\\' :: '\n' :: strChars "  x\"") [] =
      str_scan 6 (skipWsC (strChars "  x\"")) [] :=
  line_continuation_spec.1 6 '\n' (strChars "  x\"") [] (Or.inr rfl)

/-- `findIdxQ` over an append whose prefix has no match finds the head of
the suffix when that head matches. -/
theorem findIdxQ_append (p : α → Bool) (pre : List α) (a : α) (t : List α)
    (hpre : ∀ x ∈ pre, p x = false) (ha : p a = true) :
    findIdxQ p (pre ++ a :: t) = some pre.length := by
  induction pre with
  | nil => simp [findIdxQ, ha]
  | cons x xs ih =>
    have hx : p x = false := hpre x (by simp)
    have ih2 := ih (fun y hy => hpre y (by simp [hy]))
    simp [findIdxQ, hx, ih2]

/-- `rfindIdxQ` over an append whose suffix has no match finds the last
matching position when the element before that suffix matches. -/
theorem rfindIdxQ_append (p : α → Bool) (pre : List α) (a : α) (post : List α)
    (hpost : ∀ x ∈ post, p x = false) (ha : p a = true) :
    rfindIdxQ p (pre ++ a :: post) = some pre.length := by
  unfold rfindIdxQ
  have hrev : (pre ++ a :: post).reverse = post.reverse ++ a :: pre.reverse := by
    simp
  rw [hrev, findIdxQ_append p post.reverse a pre.reverse
    (fun x hx => hpost x (List.mem_reverse.mp hx)) ha]
  have hlen : (pre ++ a :: post).length = pre.length + 1 + post.length := by
    simp; omega
  rw [hlen]
  simp only [List.length_reverse, Option.some.injEq]
  omega

/-- The raw extractor returns exactly the slice strictly between the
first and last quote: on a text `pre ++ q :: mid ++ q :: post` where
`pre` and `post` are quote-free and `mid` is arbitrary, it returns `mid`
verbatim. -/
theorem rawSlice_extract [DecidableEq α] (q : α) (pre mid post : List α)
    (hpre : ∀ c ∈ pre, c ≠ q) (hpost : ∀ c ∈ post, c ≠ q) :
    rawSlice q (pre ++ q :: (mid ++ q :: post)) = Res.ok mid := by
  have hfirst : findIdxQ (fun c => c = q) (pre ++ q :: (mid ++ q :: post)) =
      some pre.length :=
    findIdxQ_append _ pre _ _ (fun x hx => by simp [hpre x hx]) (by simp)
  have hshape : pre ++ q :: (mid ++ q :: post) = (pre ++ q :: mid) ++ q :: post := by
    simp
  have hlast : rfindIdxQ (fun c => c = q) (pre ++ q :: (mid ++ q :: post)) =
      some (pre.length + 1 + mid.length) := by
    rw [hshape, rfindIdxQ_append _ _ _ _ (fun x hx => by simp [hpost x hx]) (by simp)]
    simp only [List.length_append, List.length_cons, Option.some.injEq]
    omega
  simp only [rawSlice, hfirst, hlast]
  rw [if_pos (show pre.length + 1 ≤ pre.length + 1 + mid.length by omega)]
  have harith : pre.length + 1 + mid.length - (pre.length + 1) = mid.length := by omega
  have hpre1 : pre ++ q :: (mid ++ q :: post) = (pre ++ [q]) ++ (mid ++ q :: post) := by
    simp
  have hdrop : (pre ++ q :: (mid ++ q :: post)).drop (pre.length + 1) = mid ++ q :: post := by
    rw [hpre1, show pre.length + 1 = (pre ++ [q]).length by simp, List.drop_left]
  rw [harith, hdrop, List.take_left]

/-- C9: on every raw string (leading `r`, quote-free fence text before
the first quote and after the last) and raw byte-string (leading `br`)
token, the decoder returns exactly the text strictly between the first
and the last quote, verbatim with no escape interpretation — the inner
content `mid` is arbitrary, so an embedded shorter-fenced raw string
inside it comes back unchanged. -/
theorem raw_extractor_spec :
    (∀ (pre2 mid post : List Char), (∀ c ∈ pre2, c ≠ '"') → (∀ c ∈ post, c ≠ '"') →
        str_lit ('r' :: pre2 ++ '"' :: (mid ++ '"' :: post)) = Res.ok mid) ∧
    (∀ (pre2 mid post : List Nat), (∀ b ∈ pre2, b ≠ 34) → (∀ b ∈ post, b ≠ 34) →
        byte_str_lit (98 :: 114 :: pre2 ++ 34 :: (mid ++ 34 :: post)) = Res.ok mid) := by
  constructor
  · intro pre2 mid post hpre hpost
    have hr : str_lit ('r' :: pre2 ++ '"' :: (mid ++ '"' :: post)) =
        raw_str ('r' :: pre2 ++ '"' :: (mid ++ '"' :: post)) := rfl
    rw [hr]
    have hsh : 'r' :: pre2 ++ '"' :: (mid ++ '"' :: post) =
        ('r' :: pre2) ++ '"' :: (mid ++ '"' :: post) := rfl
    rw [hsh]
    exact rawSlice_extract '"' ('r' :: pre2) mid post
      (by intro c hc
          rcases List.mem_cons.mp hc with rfl | hc2
          · decide
          · exact hpre c hc2)
      hpost
  · intro pre2 mid post hpre hpost
    have hr : byte_str_lit (98 :: 114 :: pre2 ++ 34 :: (mid ++ 34 :: post)) =
        raw_str_bytes (98 :: 114 :: pre2 ++ 34 :: (mid ++ 34 :: post)) := rfl
    rw [hr]
    have hsh : 98 :: 114 :: pre2 ++ 34 :: (mid ++ 34 :: post) =
        (98 :: 114 :: pre2) ++ 34 :: (mid ++ 34 :: post) := rfl
    rw [hsh]
    exact rawSlice_extract 34 (98 :: 114 :: pre2) mid post
      (by intro c hc
          rcases List.mem_cons.mp hc with rfl | hc2
          · decide
          · rcases List.mem_cons.mp hc2 with rfl | hc3
            · decide
            · exact hpre c hc3)
      hpost

/-- Witness for C9: a hash-fenced raw string whose content embeds a
shorter-fenced raw string decodes to that content unchanged. -/
theorem raw_extractor_witness :
    str_lit ('r' :: strChars "##" ++ '"' ::
        (strChars "A r#\"inner\"# B" ++ '"' :: strChars "##")) =
      Res.ok (strChars "A r#\"inner\"# B") :=
  raw_extractor_spec.1 (strChars "##") (strChars "A r#\"inner\"# B") (strChars "##")
    (by decide) (by decide)
